import Mathlib

/-!
Verification of the format-string parser in
`src/budget_analyzer/format_parser.py`.

The Python function `parse_format_string` splits its input on commas,
strips each part, matches each part against the anchored regular
expression `r'\{(\w+)(?::([^}]+))?\}'`, lower-cases the captured
identifier, and records a column index per field tag.  The embedding
below follows that code line by line over `List Char`:

* `splitComma` is Python `format_str.split(',')` (never returns an
  empty list: splitting the empty string yields one empty part);
* `trimChars` is Python `str.strip()` (ASCII whitespace);
* `fieldMatchAux` is the regex match: the regex is deterministic
  (backtracking can never help, since shrinking `\w+` or `[^}]+` puts a
  character that the next token rejects in first position), so it is
  faithfully computed by maximal-munch scans;
* `FieldPositions` is the `field_positions` dict; its keys can only be
  the four recognized field names, so it is modelled componentwise;
* `FormatError` carries exactly the data interpolated into the five
  `ValueError` messages of the source (for the missing-fields message,
  Python renders an unordered set; here the canonical
  date/description/amount order is used);
* `processParts` is the `for idx, part in enumerate(parts)` loop and
  `parse_format_string` the whole function.

`\w` and `.lower()` are read over ASCII; every input exercised by the
claims is ASCII.
-/

/-- Whitespace stripped by Python `str.strip()` (ASCII subset). -/
def isSpaceChar (c : Char) : Bool :=
  c == ' ' || c == '\t' || c == '\n' || c == '\r' || c == '\x0b' || c == '\x0c'

/-- Word characters of the regex class `\w` (ASCII reading). -/
def isWordChar (c : Char) : Bool :=
  c.isAlphanum || c == '_'

/-- Python `format_str.split(',')`: splits at every comma; always yields
at least one (possibly empty) part. -/
def splitComma : List Char → List (List Char)
  | [] => [[]]
  | c :: rest =>
    if c = ',' then [] :: splitComma rest
    else
      match splitComma rest with
      | s :: ss => (c :: s) :: ss
      | [] => [[c]]

/-- Remove a trailing run of whitespace. -/
def removeTrailingWs (l : List Char) : List Char :=
  (l.reverse.dropWhile isSpaceChar).reverse

/-- Python `str.strip()`: drop leading and trailing whitespace. -/
def trimChars (l : List Char) : List Char :=
  removeTrailingWs (l.dropWhile isSpaceChar)

/-- `field_pattern.match(part)` for
`field_pattern = re.compile(r'\{(\w+)(?::([^}]+))?\}')`, anchored at the
start of the part.  Returns the captured identifier (`group(1)`), the
optional subformat (`group(2)`) and the text after the closing brace
(which the match ignores).  A subformat must be non-empty (`[^}]+`), as
must the identifier (`\w+`). -/
def fieldMatchAux (l : List Char) : Option (List Char × Option (List Char) × List Char) :=
  match l with
  | '\x7b' :: r1 =>
    let ident := r1.takeWhile isWordChar
    match r1.dropWhile isWordChar with
    | '\x7d' :: r3 => if ident = [] then none else some (ident, none, r3)
    | ':' :: r3 =>
      if ident = [] then none
      else
        let sub := r3.takeWhile (fun c => !(c == '\x7d'))
        match r3.dropWhile (fun c => !(c == '\x7d')) with
        | '\x7d' :: r5 => if sub = [] then none else some (ident, some sub, r5)
        | _ => none
    | _ => none
  | _ => none

/-- The output dataclass `FormatSpec` of the source, field for field. -/
structure FormatSpec where
  date_column : Nat
  date_format : String
  description_column : Nat
  amount_column : Nat
  location_column : Option Nat
  has_header : Bool
  source_name : Option String
deriving Repr, DecidableEq

/-- The five distinct `ValueError` diagnostics `parse_format_string` can
raise, carrying exactly the data interpolated into each message. -/
inductive FormatError where
  | emptyFormatString
  | invalidFormat (idx : Nat) (part : String)
  | unknownField (tag : String) (idx : Nat)
  | duplicateField (tag : String) (idx : Nat)
  | missingRequired (missing : List String)
deriving Repr, DecidableEq

/-- The `field_positions` dict.  Entries are only ever created for the
four names of `valid_fields`, so the dict is modelled componentwise. -/
@[ext]
structure FieldPositions where
  date : Option Nat
  description : Option Nat
  amount : Option Nat
  location : Option Nat
deriving Repr, DecidableEq

def FieldPositions.empty : FieldPositions := ⟨none, none, none, none⟩

/-- `field_name in field_positions` / `field_positions.get(field_name)`. -/
def FieldPositions.lookup (fps : FieldPositions) (t : String) : Option Nat :=
  if t = "date" then fps.date
  else if t = "description" then fps.description
  else if t = "amount" then fps.amount
  else if t = "location" then fps.location
  else none

/-- `field_positions[field_name] = idx`. -/
def FieldPositions.insert (fps : FieldPositions) (t : String) (i : Nat) : FieldPositions :=
  if t = "date" then { fps with date := some i }
  else if t = "description" then { fps with description := some i }
  else if t = "amount" then { fps with amount := some i }
  else if t = "location" then { fps with location := some i }
  else fps

/-- `valid_fields = {'date', 'description', 'amount', 'location'}`. -/
def validFields : List String := [ "date", "description", "amount", "location" ]

/-- `required = {'date', 'description', 'amount'}`. -/
def requiredFields : List String := [ "date", "description", "amount" ]

/-- `match.group(1).lower()` (ASCII lower-casing). -/
def lowerName (ident : List Char) : String := ⟨ident.map Char.toLower⟩

/-- The default date format `'%m/%d/%Y'`. -/
def dfltDateFormat : String := "%m/%d/%Y"

/-- The `for idx, part in enumerate(parts)` loop of the source: skip
`{_}` parts, reject unknown and duplicate fields, record positions, and
capture a truthy date subformat as the active date format. -/
def processParts : List (List Char) → Nat → FieldPositions → String →
    Except FormatError (FieldPositions × String)
  | [], _, fps, df => .ok (fps, df)
  | part :: rest, idx, fps, df =>
    match fieldMatchAux part with
    | none => .error (.invalidFormat idx ⟨part⟩)
    | some (ident, sub, _) =>
      let field_name := lowerName ident
      if field_name = "_" then
        processParts rest (idx + 1) fps df
      else if field_name ∈ validFields then
        if (fps.lookup field_name).isSome then
          .error (.duplicateField field_name idx)
        else
          let df' := match sub with
            | some f => if field_name = "date" ∧ f ≠ [] then (⟨f⟩ : String) else df
            | none => df
          processParts rest (idx + 1) (fps.insert field_name idx) df'
      else .error (.unknownField field_name idx)

/-- `parts = [p.strip() for p in format_str.split(',')]`. -/
def segmentsOf (format_str : String) : List (List Char) :=
  (splitComma format_str.data).map trimChars

/-- The whole of `parse_format_string`: split and strip, the
(unreachable) empty-parts check, the segment loop, the required-fields
check, and construction of the `FormatSpec`. -/
def parse_format_string (format_str : String) : Except FormatError FormatSpec :=
  let parts := segmentsOf format_str
  if parts.isEmpty then .error .emptyFormatString
  else
    match processParts parts 0 FieldPositions.empty dfltDateFormat with
    | .error e => .error e
    | .ok (fps, df) =>
      match fps.date, fps.description, fps.amount with
      | some d, some de, some a =>
        .ok { date_column := d, date_format := df, description_column := de,
              amount_column := a, location_column := fps.location,
              has_header := true, source_name := none }
      | _, _, _ =>
        .error (.missingRequired (requiredFields.filter
          (fun r => (fps.lookup r).isNone)))

/-! Specification vocabulary used to state the claims: the tag and
subformat a segment carries, segment counts and first positions by tag,
and the index shift caused by inserting a segment. -/

/-- The lower-cased field tag a (stripped) segment carries, if it
matches the brace pattern. -/
def segTag (p : List Char) : Option String :=
  (fieldMatchAux p).map (fun x => lowerName x.1)

/-- The subformat text a (stripped) segment carries, if any. -/
def segSub (p : List Char) : Option String :=
  (fieldMatchAux p).bind (fun x => x.2.1.map (fun f => (⟨f⟩ : String)))

/-- The part of a segment the loop's control flow and recorded data
depend on: lower-cased tag and raw subformat. -/
def segKey (p : List Char) : Option (String × Option (List Char)) :=
  (fieldMatchAux p).map (fun x => (lowerName x.1, x.2.1))

/-- A segment that matches the brace pattern and carries either the
skip marker or one of the four recognized fields. -/
def recognizedSeg (p : List Char) : Bool :=
  match segTag p with
  | some t => t == "_" || validFields.contains t
  | none => false

/-- How many segments carry tag `t`. -/
def countTag : List (List Char) → String → Nat
  | [], _ => 0
  | p :: rest, t => (if segTag p = some t then 1 else 0) + countTag rest t

/-- Zero-based index of the first segment carrying tag `t`. -/
def findTagIdx : List (List Char) → String → Option Nat
  | [], _ => none
  | p :: rest, t =>
    if segTag p = some t then some 0
    else (findTagIdx rest t).map (fun j => j + 1)

/-- The raw subformat of the first segment tagged `date`, if any. -/
def dateSubOf : List (List Char) → Option (List Char)
  | [] => none
  | p :: rest =>
    if segTag p = some ( "date" ) then (fieldMatchAux p).bind (fun x => x.2.1)
    else dateSubOf rest

/-- Index shift caused by inserting one segment at position `n`:
positions at or after `n` move up by one. -/
def bumpVal (n v : Nat) : Nat := if n ≤ v then v + 1 else v

/-- `bumpVal` applied to every recorded position. -/
def bumpF (n : Nat) (fps : FieldPositions) : FieldPositions :=
  ⟨fps.date.map (bumpVal n), fps.description.map (bumpVal n),
   fps.amount.map (bumpVal n), fps.location.map (bumpVal n)⟩

/-! Concrete inputs used by the claims (braces written as hex escapes). -/

def sEmpty : String := ""

def sSpaces : String := "   "

def sCommas : String := ",,"

def sC7 : String := "\x7bdate:%Y-%m-%d\x7d, \x7b_\x7d, \x7bdescription\x7d, \x7blocation\x7d, \x7bamount\x7d"

def sC4 : String := "\x7bdate\x7d, \x7bdate\x7d, \x7bdescription\x7d, \x7bamount\x7d"

def sC4x : String := "\x7bcolor\x7d, \x7bdate\x7d, \x7bdate\x7d"

def sC6 : String := "\x7bcolor\x7d, \x7bdescription\x7d, \x7bamount\x7d, \x7bdate\x7d"

def sC6x : String := "x, \x7bcolor\x7d"

def segDate : List Char := "\x7bdate\x7d".data

def segDesc : List Char := "\x7bdescription\x7d".data

def segAmount : List Char := "\x7bamount\x7d".data

def segColor : List Char := "\x7bcolor\x7d".data

def skipSeg : List Char := [ '\x7b', '_', '\x7d' ]

/-! Witness inputs for the universally quantified claims. -/

def sC2w : String := "\x7bAmount\x7d, \x7b_\x7d, \x7bdate:%d\x7d, \x7blocation\x7d, \x7bDESCRIPTION\x7d"

def sC3w : String := "\x7bdate:%Y-%m-%d\x7d, \x7bdescription\x7d, \x7bamount\x7d"

def specC3 : FormatSpec := ⟨0, "%Y-%m-%d", 1, 2, none, true, none⟩

def sC5w : String := "\x7bdescription\x7d, \x7bamount\x7d"

def sC8w : String := "\x7bdate\x7d, \x7bdescription\x7d, \x7bamount\x7d"

def sC8wx : String := "\x7bdate\x7dXY, \x7bdescription\x7d, \x7bamount\x7d"

def specBasic : FormatSpec := ⟨0, "%m/%d/%Y", 1, 2, none, true, none⟩

def pC8 : List Char := "\x7bdate\x7d".data

def tC8 : List Char := "XY".data

def qsC8 : List (List Char) := [ " \x7bdescription\x7d".data, " \x7bamount\x7d".data ]

def sC9w : String := "\x7bDATE\x7d, \x7bdescription\x7d, \x7bamount\x7d"

def sC9wx : String := "\x7bdate\x7d, \x7bdescription\x7d, \x7bamount\x7d"

def pC9 : List Char := "\x7bDATE\x7d".data

def pC9x : List Char := "\x7bdate\x7d".data

def iC9 : List Char := "DATE".data

def iC9x : List Char := "date".data

def sC10wx : String := "\x7bdate\x7d, \x7b_\x7d, \x7bdescription\x7d, \x7bamount\x7d"

def wC10 : List Char := " \x7b_\x7d".data

/-- Equality of parse outcomes is decidable (used to evaluate the
parser on concrete inputs inside proofs). -/
instance {ε α : Type} [DecidableEq ε] [DecidableEq α] : DecidableEq (Except ε α)
  | .error e, .error f =>
    if h : e = f then .isTrue (h ▸ rfl) else .isFalse (fun hc => h (by cases hc; rfl))
  | .error _, .ok _ => .isFalse (fun hc => by cases hc)
  | .ok _, .error _ => .isFalse (fun hc => by cases hc)
  | .ok a, .ok b =>
    if h : a = b then .isTrue (h ▸ rfl) else .isFalse (fun hc => h (by cases hc; rfl))

/-! Lookup and insert facts for the componentwise dict model. -/

theorem FieldPositions.lookup_date (fps : FieldPositions) :
    fps.lookup ( "date" ) = fps.date := rfl

theorem FieldPositions.lookup_description (fps : FieldPositions) :
    fps.lookup ( "description" ) = fps.description := by
  simp [FieldPositions.lookup]

theorem FieldPositions.lookup_amount (fps : FieldPositions) :
    fps.lookup ( "amount" ) = fps.amount := by
  simp [FieldPositions.lookup]

theorem FieldPositions.lookup_location (fps : FieldPositions) :
    fps.lookup ( "location" ) = fps.location := by
  simp [FieldPositions.lookup]

theorem FieldPositions.lookup_insert_self (fps : FieldPositions) (t : String) (i : Nat)
    (ht : t ∈ validFields) : (fps.insert t i).lookup t = some i := by
  simp only [validFields, List.mem_cons, List.not_mem_nil, or_false] at ht
  rcases ht with h | h | h | h <;> subst h <;>
    simp [FieldPositions.insert, FieldPositions.lookup]

theorem FieldPositions.lookup_insert_ne (fps : FieldPositions) (t u : String) (i : Nat)
    (hne : u ≠ t) : (fps.insert t i).lookup u = fps.lookup u := by
  unfold FieldPositions.insert FieldPositions.lookup
  split_ifs <;> simp_all

theorem FieldPositions.date_insert_ne (fps : FieldPositions) (t : String) (i : Nat)
    (hne : t ≠ "date") : (fps.insert t i).date = fps.date := by
  unfold FieldPositions.insert
  split_ifs <;> simp_all

theorem FieldPositions.empty_lookup (t : String) :
    FieldPositions.empty.lookup t = none := by
  unfold FieldPositions.lookup
  split_ifs <;> rfl

/-! Basic structural facts: the split is never empty, so the
empty-format-string branch of the parser is unreachable. -/

theorem splitComma_ne_nil (l : List Char) : splitComma l ≠ [] := by
  induction l with
  | nil => simp [splitComma]
  | cons c rest ih =>
    by_cases hc : c = ','
    · simp [splitComma, hc]
    · simp only [splitComma, if_neg hc]
      cases h : splitComma rest <;> simp

theorem segmentsOf_ne_nil (s : String) : segmentsOf s ≠ [] := by
  intro h
  exact splitComma_ne_nil s.data (List.map_eq_nil_iff.mp h)

/-- `parse_format_string` with the dead emptiness check removed. -/
theorem parse_format_string_eq (s : String) :
    parse_format_string s =
      match processParts (segmentsOf s) 0 FieldPositions.empty dfltDateFormat with
      | .error e => .error e
      | .ok (fps, df) =>
        match fps.date, fps.description, fps.amount with
        | some d, some de, some a =>
          .ok { date_column := d, date_format := df, description_column := de,
                amount_column := a, location_column := fps.location,
                has_header := true, source_name := none }
        | _, _, _ =>
          .error (.missingRequired (requiredFields.filter
            (fun r => (fps.lookup r).isNone))) := by
  have h : (segmentsOf s).isEmpty = false := by
    cases hseg : segmentsOf s with
    | nil => exact absurd hseg (segmentsOf_ne_nil s)
    | cons a l => rfl
  unfold parse_format_string
  simp only [h, Bool.false_eq_true, if_false]

/-- Running the loop on an appended list runs the two pieces in
sequence, threading state and the position counter. -/
theorem processParts_append (xs ys : List (List Char)) (idx : Nat)
    (fps : FieldPositions) (df : String) :
    processParts (xs ++ ys) idx fps df =
      match processParts xs idx fps df with
      | .ok (f, d) => processParts ys (idx + xs.length) f d
      | .error e => .error e := by
  induction xs generalizing idx fps df with
  | nil => simp [processParts]
  | cons p rest ih =>
    simp only [List.cons_append, processParts, List.append_eq]
    cases hm : fieldMatchAux p with
    | none => rfl
    | some x =>
      obtain ⟨ident, sub, rem⟩ := x
      by_cases h1 : lowerName ident = "_"
      · simp only [if_pos h1, ih, List.length_cons]
        rw [show idx + 1 + rest.length = idx + (rest.length + 1) from by omega]
      · by_cases h2 : lowerName ident ∈ validFields
        · by_cases h3 : (fps.lookup (lowerName ident)).isSome
          · simp only [if_neg h1, if_pos h2, if_pos h3]
          · simp only [if_neg h1, if_pos h2, if_neg h3, ih, List.length_cons]
            rw [show idx + 1 + rest.length = idx + (rest.length + 1) from by omega]
        · simp only [if_neg h1, if_neg h2]

/-- A successful loop run means every part matched the brace pattern. -/
theorem processParts_ok_matched (parts : List (List Char)) (idx : Nat)
    (fps : FieldPositions) (df : String) (r : FieldPositions × String)
    (h : processParts parts idx fps df = .ok r) :
    ∀ p ∈ parts, (fieldMatchAux p).isSome := by
  induction parts generalizing idx fps df with
  | nil => intro p hp; simp at hp
  | cons q rest ih =>
    intro p hp
    simp only [processParts] at h
    rcases List.mem_cons.mp hp with rfl | hp'
    · cases hm : fieldMatchAux p with
      | none => rw [hm] at h; cases h
      | some x => simp
    · cases hm : fieldMatchAux q with
      | none => rw [hm] at h; cases h
      | some x =>
        obtain ⟨ident, sub, rem⟩ := x
        rw [hm] at h
        simp only at h
        split at h
        · exact ih _ _ _ h p hp'
        · split at h
          · split at h
            · cases h
            · exact ih _ _ _ h p hp'
          · cases h

theorem recognizedSeg_spec (p : List Char) (h : recognizedSeg p = true) :
    ∃ x, fieldMatchAux p = some x ∧
      (lowerName x.1 = "_" ∨ lowerName x.1 ∈ validFields) := by
  unfold recognizedSeg at h
  cases hm : fieldMatchAux p with
  | none => simp [segTag, hm] at h
  | some x =>
    refine ⟨x, rfl, ?_⟩
    simp [segTag, hm] at h
    exact h

theorem segTag_of_match (p : List Char) (x : List Char × Option (List Char) × List Char)
    (hm : fieldMatchAux p = some x) : segTag p = some (lowerName x.1) := by
  simp [segTag, hm]

theorem countTag_cons_of_ne (p : List Char) (parts : List (List Char)) (t : String)
    (h : segTag p ≠ some t) : countTag (p :: parts) t = countTag parts t := by
  simp [countTag, h]

theorem countTag_cons_self (p : List Char) (parts : List (List Char)) (t : String)
    (h : segTag p = some t) : countTag (p :: parts) t = countTag parts t + 1 := by
  simp [countTag, h, Nat.add_comm]

theorem findTagIdx_cons_of_ne (p : List Char) (parts : List (List Char)) (t : String)
    (h : segTag p ≠ some t) :
    findTagIdx (p :: parts) t = (findTagIdx parts t).map (fun j => j + 1) := by
  simp [findTagIdx, h]

theorem findTagIdx_cons_self (p : List Char) (parts : List (List Char)) (t : String)
    (h : segTag p = some t) : findTagIdx (p :: parts) t = some 0 := by
  simp [findTagIdx, h]

theorem findTagIdx_none_iff (parts : List (List Char)) (t : String) :
    findTagIdx parts t = none ↔ countTag parts t = 0 := by
  induction parts with
  | nil => simp [findTagIdx, countTag]
  | cons p rest ih =>
    by_cases h : segTag p = some t
    · simp [findTagIdx, countTag, h]
    · simp [findTagIdx, countTag, h, ih, Option.map_eq_none']

theorem findTagIdx_spec (parts : List (List Char)) (t : String) (j : Nat)
    (h : findTagIdx parts t = some j) : ∃ p, parts[j]? = some p ∧ segTag p = some t := by
  induction parts generalizing j with
  | nil => simp [findTagIdx] at h
  | cons p rest ih =>
    by_cases hp : segTag p = some t
    · simp [findTagIdx, hp] at h
      exact h ▸ ⟨p, by simp, hp⟩
    · simp [findTagIdx, hp, Option.map_eq_some'] at h
      obtain ⟨j', hj', rfl⟩ := h
      obtain ⟨q, hq, ht⟩ := ih j' hj'
      exact ⟨q, by simpa using hq, ht⟩

theorem underscore_not_valid : ( "_" ) ∉ validFields := by decide

/-- Main loop invariant: on a list of recognized, duplicate-free parts
the loop succeeds and the final dict maps each valid field to the
position of the part carrying it (offset by the starting index),
unless it was already recorded. -/
theorem processParts_wf (parts : List (List Char)) (idx : Nat) (fps : FieldPositions)
    (df : String)
    (hw : ∀ p ∈ parts, recognizedSeg p = true)
    (hd : ∀ t ∈ validFields, (fps.lookup t).isSome → countTag parts t = 0)
    (hu : ∀ t ∈ validFields, countTag parts t ≤ 1) :
    ∃ fps' df', processParts parts idx fps df = .ok (fps', df') ∧
      ∀ t ∈ validFields, fps'.lookup t =
        (fps.lookup t).or ((findTagIdx parts t).map (fun j => j + idx)) := by
  induction parts generalizing idx fps df with
  | nil =>
    refine ⟨fps, df, rfl, ?_⟩
    intro t ht
    simp [findTagIdx]
  | cons p rest ih =>
    obtain ⟨⟨ident, sub, rem⟩, hm, htag⟩ :=
      recognizedSeg_spec p (hw p (List.mem_cons_self p rest))
    have hsome_tag : segTag p = some (lowerName ident) := segTag_of_match p _ hm
    simp only [processParts, hm]
    rcases htag with h_ | hv
    · -- skip segment
      rw [if_pos h_]
      have hskip : ∀ u ∈ validFields, segTag p ≠ some u := by
        intro u hu' hequ
        rw [hsome_tag] at hequ
        have : lowerName ident = u := by injection hequ
        rw [h_] at this
        exact underscore_not_valid (this ▸ hu')
      have hw' : ∀ q ∈ rest, recognizedSeg q = true :=
        fun q hq => hw q (List.mem_cons_of_mem _ hq)
      have hd' : ∀ u ∈ validFields, (fps.lookup u).isSome → countTag rest u = 0 := by
        intro u hu' hs
        have h0 := hd u hu' hs
        rwa [countTag_cons_of_ne p rest u (hskip u hu')] at h0
      have hu' : ∀ u ∈ validFields, countTag rest u ≤ 1 := by
        intro u hu2
        have h1 := hu u hu2
        rwa [countTag_cons_of_ne p rest u (hskip u hu2)] at h1
      obtain ⟨fps', df', hrun, hchar⟩ := ih (idx + 1) fps df hw' hd' hu'
      refine ⟨fps', df', hrun, ?_⟩
      intro u hu2
      rw [hchar u hu2, findTagIdx_cons_of_ne p rest u (hskip u hu2)]
      cases hf : findTagIdx rest u with
      | none => simp
      | some j =>
        simp only [Option.map_map, Option.map_some']
        rw [show j + (idx + 1) = j + 1 + idx from by omega]
    · -- recognized field
      have hne_ : lowerName ident ≠ "_" := by
        intro he
        rw [he] at hv
        exact underscore_not_valid hv
      rw [if_neg hne_, if_pos hv]
      have hcount_head : countTag (p :: rest) (lowerName ident) ≠ 0 := by
        rw [countTag_cons_self p rest _ hsome_tag]
        omega
      have hlookup_none : fps.lookup (lowerName ident) = none := by
        cases hl : fps.lookup (lowerName ident) with
        | none => rfl
        | some j => exact absurd (hd _ hv (by simp [hl])) hcount_head
      rw [hlookup_none]
      simp only [Option.isSome_none, Bool.false_eq_true, if_false]
      have hw' : ∀ q ∈ rest, recognizedSeg q = true :=
        fun q hq => hw q (List.mem_cons_of_mem _ hq)
      have hd' : ∀ u ∈ validFields,
          ((fps.insert (lowerName ident) idx).lookup u).isSome → countTag rest u = 0 := by
        intro u hu2 hs
        by_cases hut : u = lowerName ident
        · subst hut
          have h1 := hu _ hu2
          rw [countTag_cons_self p rest _ hsome_tag] at h1
          omega
        · have hne2 : segTag p ≠ some u := by
            rw [hsome_tag]
            exact fun hc => hut (Option.some.inj hc).symm
          rw [FieldPositions.lookup_insert_ne fps _ u idx hut] at hs
          have h0 := hd u hu2 hs
          rwa [countTag_cons_of_ne p rest u hne2] at h0
      have hu2' : ∀ u ∈ validFields, countTag rest u ≤ 1 := by
        intro u hu2
        have h1 := hu u hu2
        by_cases hut : segTag p = some u
        · rw [countTag_cons_self p rest u hut] at h1
          omega
        · rwa [countTag_cons_of_ne p rest u hut] at h1
      obtain ⟨fps', df', hrun, hchar⟩ := ih (idx + 1) _ _ hw' hd' hu2'
      refine ⟨fps', df', hrun, ?_⟩
      intro u hu2
      rw [hchar u hu2]
      by_cases hut : u = lowerName ident
      · subst hut
        rw [FieldPositions.lookup_insert_self fps _ idx hv, hlookup_none,
          findTagIdx_cons_self p rest _ hsome_tag]
        simp
      · have hne2 : segTag p ≠ some u := by
          rw [hsome_tag]
          exact fun hc => hut (Option.some.inj hc).symm
        rw [FieldPositions.lookup_insert_ne fps _ u idx hut,
          findTagIdx_cons_of_ne p rest u hne2]
        cases hf : findTagIdx rest u with
        | none => simp
        | some j =>
          simp only [Option.map_map, Option.map_some']
          rw [show j + (idx + 1) = j + 1 + idx from by omega]

theorem FieldPositions.date_insert_self (fps : FieldPositions) (i : Nat) :
    (fps.insert ( "date" ) i).date = some i := by
  simp [FieldPositions.insert]

theorem dateSubOf_cons_self (p : List Char) (parts : List (List Char))
    (h : segTag p = some ( "date" )) :
    dateSubOf (p :: parts) = (fieldMatchAux p).bind (fun x => x.2.1) := by
  simp [dateSubOf, h]

theorem dateSubOf_cons_ne (p : List Char) (parts : List (List Char))
    (h : segTag p ≠ some ( "date" )) :
    dateSubOf (p :: parts) = dateSubOf parts := by
  simp [dateSubOf, h]

/-- How the date format comes out of a successful loop run: if `date`
was already recorded nothing changes; otherwise at most one `date`
segment exists, `date` ends recorded iff one exists, and the resulting
format is the date segment's (non-empty) subformat if it has one, else
the incoming format. -/
theorem processParts_dateFormat (parts : List (List Char)) (idx : Nat)
    (fps : FieldPositions) (df : String) (fps' : FieldPositions) (df' : String)
    (h : processParts parts idx fps df = .ok (fps', df')) :
    (fps.date.isSome →
      df' = df ∧ fps'.date = fps.date ∧ countTag parts ( "date" ) = 0) ∧
    (fps.date = none →
      countTag parts ( "date" ) ≤ 1 ∧
      (fps'.date.isSome ↔ (findTagIdx parts ( "date" )).isSome) ∧
      df' = match dateSubOf parts with
            | some f => if f = [] then df else (⟨f⟩ : String)
            | none => df) := by
  induction parts generalizing idx fps df fps' df' with
  | nil =>
    simp only [processParts, Except.ok.injEq, Prod.mk.injEq] at h
    obtain ⟨rfl, rfl⟩ := h
    constructor
    · intro hs
      exact ⟨rfl, rfl, rfl⟩
    · intro hn
      refine ⟨by simp [countTag], ?_, rfl⟩
      simp [findTagIdx, hn]
  | cons p rest ih =>
    simp only [processParts] at h
    cases hm : fieldMatchAux p with
    | none => rw [hm] at h; cases h
    | some x =>
      obtain ⟨ident, sub, rem⟩ := x
      have hsome_tag : segTag p = some (lowerName ident) := by simp [segTag, hm]
      rw [hm] at h
      simp only at h
      by_cases h1 : lowerName ident = "_"
      · rw [if_pos h1] at h
        have hnd : segTag p ≠ some ( "date" ) := by
          rw [hsome_tag, h1]
          intro hc
          exact absurd (Option.some.inj hc) (by decide)
        obtain ⟨ihs, ihn⟩ := ih _ _ _ _ _ h
        constructor
        · intro hs
          obtain ⟨e1, e2, e3⟩ := ihs hs
          exact ⟨e1, e2, by rwa [countTag_cons_of_ne p rest _ hnd]⟩
        · intro hn
          obtain ⟨e1, e2, e3⟩ := ihn hn
          refine ⟨by rwa [countTag_cons_of_ne p rest _ hnd], ?_, ?_⟩
          · rw [findTagIdx_cons_of_ne p rest _ hnd]
            simpa using e2
          · rwa [dateSubOf_cons_ne p rest hnd]
      · by_cases h2 : lowerName ident ∈ validFields
        · rw [if_neg h1, if_pos h2] at h
          by_cases h3 : (fps.lookup (lowerName ident)).isSome
          · rw [if_pos h3] at h
            cases h
          · rw [if_neg h3] at h
            by_cases h4 : lowerName ident = "date"
            · -- the date field is recorded here
              rw [h4] at h h3
              rw [FieldPositions.lookup_date] at h3
              have hdn : fps.date = none := by
                cases hl : fps.date with
                | none => rfl
                | some j => rw [hl] at h3; simp at h3
              have hd_tag : segTag p = some ( "date" ) := by rw [hsome_tag, h4]
              obtain ⟨ihs, _⟩ := ih _ _ _ _ _ h
              have hrec : ((fps.insert ( "date" ) idx).date).isSome := by
                rw [FieldPositions.date_insert_self]
                rfl
              obtain ⟨e1, e2, e3⟩ := ihs hrec
              constructor
              · intro hs
                rw [hdn] at hs
                cases hs
              · intro _
                refine ⟨?_, ?_, ?_⟩
                · rw [countTag_cons_self p rest _ hd_tag, e3]
                · rw [findTagIdx_cons_self p rest _ hd_tag, e2,
                    FieldPositions.date_insert_self]
                  simp
                · rw [dateSubOf_cons_self p rest hd_tag, hm, e1]
                  cases sub with
                  | none => simp
                  | some f =>
                    by_cases hf : f = []
                    · simp [hf]
                    · simp [hf]
            · -- some other recognized field
              have hnd : segTag p ≠ some ( "date" ) := by
                rw [hsome_tag]
                exact fun hc => h4 (Option.some.inj hc)
              have h' : processParts rest (idx + 1)
                  (fps.insert (lowerName ident) idx) df = .ok (fps', df') := by
                cases sub with
                | none => exact h
                | some f => simpa [h4] using h
              have hd2 : (fps.insert (lowerName ident) idx).date = fps.date :=
                FieldPositions.date_insert_ne fps _ idx h4
              obtain ⟨ihs, ihn⟩ := ih _ _ _ _ _ h'
              constructor
              · intro hs
                obtain ⟨e1, e2, e3⟩ := ihs (by rwa [hd2])
                refine ⟨e1, by rwa [hd2] at e2, ?_⟩
                rwa [countTag_cons_of_ne p rest _ hnd]
              · intro hn
                obtain ⟨e1, e2, e3⟩ := ihn (by rwa [hd2])
                refine ⟨by rwa [countTag_cons_of_ne p rest _ hnd], ?_, ?_⟩
                · rw [findTagIdx_cons_of_ne p rest _ hnd]
                  simpa using e2
                · rwa [dateSubOf_cons_ne p rest hnd]
        · rw [if_neg h1, if_neg h2] at h
          cases h

/-- The loop only looks at a part through `segKey` (and through its
literal text when it fails to match): pointwise `segKey`-equal part
lists (equal as text wherever unmatched) drive the loop identically. -/
theorem processParts_congr (parts parts' : List (List Char))
    (hrel : List.Forall₂
      (fun a b => segKey a = segKey b ∧ (segKey a = none → a = b)) parts parts')
    (idx : Nat) (fps : FieldPositions) (df : String) :
    processParts parts idx fps df = processParts parts' idx fps df := by
  induction hrel generalizing idx fps df with
  | nil => rfl
  | @cons a b l₁ l₂ hab hrest ih =>
    obtain ⟨hkey, htext⟩ := hab
    simp only [processParts]
    cases hma : fieldMatchAux a with
    | none =>
      have hka : segKey a = none := by simp [segKey, hma]
      have hmb : fieldMatchAux b = none := by
        have hkb : segKey b = none := hkey ▸ hka
        simpa [segKey, Option.map_eq_none'] using hkb
      rw [hmb, htext hka]
    | some x =>
      obtain ⟨ia, sa, ra⟩ := x
      have hka : segKey a = some (lowerName ia, sa) := by simp [segKey, hma]
      have hkb : segKey b = some (lowerName ia, sa) := hkey ▸ hka
      cases hmb : fieldMatchAux b with
      | none => simp [segKey, hmb] at hkb
      | some y =>
        obtain ⟨ib, sb, rb⟩ := y
        have hkb2 : segKey b = some (lowerName ib, sb) := by simp [segKey, hmb]
        rw [hkb2] at hkb
        obtain ⟨hlow, hsub⟩ := Prod.mk.injEq .. ▸ Option.some.inj hkb
        simp only
        rw [hlow, hsub]
        by_cases hskip : lowerName ia = "_"
        · simp only [if_pos hskip]
          exact ih (idx + 1) fps df
        · by_cases hvf : lowerName ia ∈ validFields
          · by_cases hdup : (fps.lookup (lowerName ia)).isSome
            · simp only [if_neg hskip, if_pos hvf, if_pos hdup]
            · simp only [if_neg hskip, if_pos hvf, if_neg hdup]
              exact ih _ _ _
          · simp only [if_neg hskip, if_neg hvf]

/-- A successful match consumes an initial chunk `m` of the part,
ending at the closing brace; the result does not depend on what
follows that chunk. -/
theorem fieldMatchAux_consumed (l : List Char) (i : List Char) (su : Option (List Char))
    (rem : List Char) (h : fieldMatchAux l = some (i, su, rem)) :
    ∃ m, l = m ++ rem ∧ m ≠ [] ∧ m.getLast? = some '\x7d' ∧
      ∀ rest, fieldMatchAux (m ++ rest) = some (i, su, rest) := by
  unfold fieldMatchAux at h
  split at h
  · next r1 =>
    split at h
    · -- pattern {ident}
      next r3 heq =>
      simp only at h
      split at h
      · cases h
      · next hident =>
        simp only [Option.some.injEq, Prod.mk.injEq] at h
        obtain ⟨h1, h2, h3⟩ := h
        subst h1
        subst h2
        subst h3
        have htw : ∀ c ∈ List.takeWhile isWordChar r1, isWordChar c = true :=
          fun c hc => List.mem_takeWhile_imp hc
        refine ⟨'\x7b' :: (List.takeWhile isWordChar r1 ++ ['\x7d']), ?_, by simp, ?_, ?_⟩
        · conv_lhs => rw [← List.takeWhile_append_dropWhile (p := isWordChar) (l := r1), heq]
          simp
        · rw [show '\x7b' :: (List.takeWhile isWordChar r1 ++ ['\x7d']) =
            ('\x7b' :: List.takeWhile isWordChar r1) ++ ['\x7d'] from by simp,
            List.getLast?_concat]
        · intro rest
          rw [show ('\x7b' :: (List.takeWhile isWordChar r1 ++ ['\x7d'])) ++ rest =
            '\x7b' :: (List.takeWhile isWordChar r1 ++ '\x7d' :: rest) from by simp]
          have e1 : List.takeWhile isWordChar
              (List.takeWhile isWordChar r1 ++ '\x7d' :: rest) =
              List.takeWhile isWordChar r1 := by
            rw [List.takeWhile_append_of_pos htw,
              List.takeWhile_cons_of_neg (by decide), List.append_nil]
          have e2 : List.dropWhile isWordChar
              (List.takeWhile isWordChar r1 ++ '\x7d' :: rest) = '\x7d' :: rest := by
            rw [List.dropWhile_append_of_pos htw,
              List.dropWhile_cons_of_neg (by decide)]
          simp only [fieldMatchAux, e1, e2]
          rw [if_neg hident]
    · -- pattern {ident:sub}
      next r3 heq =>
      simp only at h
      split at h
      · cases h
      · next hident =>
        split at h
        · next r5 heq2 =>
          split at h
          · cases h
          · next hsub =>
            simp only [Option.some.injEq, Prod.mk.injEq] at h
            obtain ⟨h1, h2, h3⟩ := h
            subst h1
            subst h2
            subst h3
            have htw : ∀ c ∈ List.takeWhile isWordChar r1, isWordChar c = true :=
              fun c hc => List.mem_takeWhile_imp hc
            have hts : ∀ c ∈ List.takeWhile (fun c => !(c == '\x7d')) r3,
                (!(c == '\x7d')) = true :=
              fun c hc => List.mem_takeWhile_imp (p := fun c => !(c == '\x7d')) hc
            refine ⟨'\x7b' :: (List.takeWhile isWordChar r1 ++ ':' ::
              (List.takeWhile (fun c => !(c == '\x7d')) r3 ++ ['\x7d'])), ?_, by simp, ?_, ?_⟩
            · conv_lhs =>
                rw [← List.takeWhile_append_dropWhile (p := isWordChar) (l := r1), heq]
              conv_lhs =>
                rw [← List.takeWhile_append_dropWhile
                  (p := fun c => !(c == '\x7d')) (l := r3), heq2]
              simp
            · rw [show '\x7b' :: (List.takeWhile isWordChar r1 ++ ':' ::
                (List.takeWhile (fun c => !(c == '\x7d')) r3 ++ ['\x7d'])) =
                ('\x7b' :: (List.takeWhile isWordChar r1 ++ ':' ::
                  List.takeWhile (fun c => !(c == '\x7d')) r3)) ++ ['\x7d'] from by simp,
                List.getLast?_concat]
            · intro rest
              rw [show ('\x7b' :: (List.takeWhile isWordChar r1 ++ ':' ::
                (List.takeWhile (fun c => !(c == '\x7d')) r3 ++ ['\x7d']))) ++ rest =
                '\x7b' :: (List.takeWhile isWordChar r1 ++ ':' ::
                (List.takeWhile (fun c => !(c == '\x7d')) r3 ++ '\x7d' :: rest))
                from by simp]
              have e1 : List.takeWhile isWordChar
                  (List.takeWhile isWordChar r1 ++ ':' ::
                    (List.takeWhile (fun c => !(c == '\x7d')) r3 ++ '\x7d' :: rest)) =
                  List.takeWhile isWordChar r1 := by
                rw [List.takeWhile_append_of_pos htw,
                  List.takeWhile_cons_of_neg (by decide), List.append_nil]
              have e2 : List.dropWhile isWordChar
                  (List.takeWhile isWordChar r1 ++ ':' ::
                    (List.takeWhile (fun c => !(c == '\x7d')) r3 ++ '\x7d' :: rest)) =
                  ':' :: (List.takeWhile (fun c => !(c == '\x7d')) r3 ++ '\x7d' :: rest) := by
                rw [List.dropWhile_append_of_pos htw,
                  List.dropWhile_cons_of_neg (by decide)]
              have e3 : List.takeWhile (fun c => !(c == '\x7d'))
                  (List.takeWhile (fun c => !(c == '\x7d')) r3 ++ '\x7d' :: rest) =
                  List.takeWhile (fun c => !(c == '\x7d')) r3 := by
                rw [List.takeWhile_append_of_pos hts,
                  List.takeWhile_cons_of_neg (by decide), List.append_nil]
              have e4 : List.dropWhile (fun c => !(c == '\x7d'))
                  (List.takeWhile (fun c => !(c == '\x7d')) r3 ++ '\x7d' :: rest) =
                  '\x7d' :: rest := by
                rw [List.dropWhile_append_of_pos hts,
                  List.dropWhile_cons_of_neg (by decide)]
              simp only [fieldMatchAux, e1, e2, e3, e4]
              rw [if_neg hident, if_neg hsub]
        · next hcatch => cases h
    · next h1 h2 => cases h
  · next hne => cases h

/-- Every list is its trailing-whitespace-stripped form plus a
whitespace suffix. -/
theorem removeTrailingWs_decomp (l : List Char) :
    ∃ w, l = removeTrailingWs l ++ w ∧ ∀ c ∈ w, isSpaceChar c = true := by
  refine ⟨(List.takeWhile isSpaceChar l.reverse).reverse, ?_, ?_⟩
  · unfold removeTrailingWs
    conv_lhs => rw [← l.reverse_reverse,
      ← List.takeWhile_append_dropWhile (p := isSpaceChar) (l := l.reverse)]
    rw [List.reverse_append]
  · intro c hc
    exact List.mem_takeWhile_imp (List.mem_reverse.mp hc)

/-- Stripping trailing whitespace from `m ++ x` keeps all of `m` when
`m` ends in a closing brace (a non-whitespace character). -/
theorem removeTrailingWs_append (m x : List Char) (hm : m.getLast? = some '\x7d') :
    removeTrailingWs (m ++ x) = m ++ removeTrailingWs x := by
  unfold removeTrailingWs
  rw [List.reverse_append, List.dropWhile_append]
  rcases hxe : List.dropWhile isSpaceChar x.reverse with _ | ⟨c, cs⟩
  · simp only [List.isEmpty_nil, if_true]
    have hh : m.reverse.head? = some '\x7d' := by rw [List.head?_reverse, hm]
    cases hmr : m.reverse with
    | nil => rw [hmr] at hh; cases hh
    | cons d ds =>
      rw [hmr] at hh
      simp only [List.head?_cons, Option.some.injEq] at hh
      subst hh
      rw [List.dropWhile_cons_of_neg (by decide), ← hmr, List.reverse_reverse]
      simp
  · rw [if_neg (by simp)]
    rw [List.reverse_append, List.reverse_reverse]

/-- Appending trailing text to a part whose stripped form matches the
brace pattern leaves the captured identifier and subformat unchanged
(only the ignored remainder differs). -/
theorem trim_append_match (p t : List Char) (i : List Char) (su : Option (List Char))
    (rem : List Char) (h : fieldMatchAux (trimChars p) = some (i, su, rem)) :
    ∃ rem', fieldMatchAux (trimChars (p ++ t)) = some (i, su, rem') := by
  obtain ⟨m, hdecomp, hmne, hlast, hall⟩ := fieldMatchAux_consumed _ _ _ _ h
  unfold trimChars at hdecomp
  obtain ⟨w, hq, _⟩ := removeTrailingWs_decomp (p.dropWhile isSpaceChar)
  have hqd : List.dropWhile isSpaceChar p = (m ++ rem) ++ w := by
    rw [hq, hdecomp]
  have hdw : List.dropWhile isSpaceChar (p ++ t) = ((m ++ rem) ++ w) ++ t := by
    rw [List.dropWhile_append, hqd]
    obtain ⟨m0, m1, rfl⟩ := List.exists_cons_of_ne_nil hmne
    simp
  have htr : trimChars (p ++ t) = m ++ removeTrailingWs (rem ++ (w ++ t)) := by
    unfold trimChars
    rw [hdw, show ((m ++ rem) ++ w) ++ t = m ++ (rem ++ (w ++ t)) from by
      simp [List.append_assoc]]
    exact removeTrailingWs_append m _ hlast
  exact ⟨removeTrailingWs (rem ++ (w ++ t)), by rw [htr, hall _]⟩

/-- Appending trailing text to a matching part does not change its key. -/
theorem segKey_append (p t : List Char) (hk : (segKey (trimChars p)).isSome) :
    segKey (trimChars (p ++ t)) = segKey (trimChars p) := by
  cases hm : fieldMatchAux (trimChars p) with
  | none => rw [segKey, hm] at hk; cases hk
  | some x =>
    obtain ⟨i, su, rem⟩ := x
    obtain ⟨rem', hm'⟩ := trim_append_match p t i su rem hm
    simp [segKey, hm, hm']

/-- Characterization of a successful parse in terms of the loop's final
state. -/
theorem parse_ok_iff (s : String) (spec : FormatSpec) :
    parse_format_string s = .ok spec ↔
    ∃ fps df,
      processParts (segmentsOf s) 0 FieldPositions.empty dfltDateFormat = .ok (fps, df) ∧
      fps.date = some spec.date_column ∧
      fps.description = some spec.description_column ∧
      fps.amount = some spec.amount_column ∧
      fps.location = spec.location_column ∧
      spec.date_format = df ∧ spec.has_header = true ∧ spec.source_name = none := by
  rw [parse_format_string_eq]
  cases hr : processParts (segmentsOf s) 0 FieldPositions.empty dfltDateFormat with
  | error e =>
    constructor
    · intro h
      cases h
    · rintro ⟨fps, df, hok, -⟩
      cases hok
  | ok r =>
    obtain ⟨fps, df⟩ := r
    constructor
    · intro h
      simp only at h
      cases hd : fps.date with
      | none => rw [hd] at h; cases h
      | some d =>
        cases hde : fps.description with
        | none => rw [hd, hde] at h; cases h
        | some de =>
          cases ha : fps.amount with
          | none => rw [hd, hde, ha] at h; cases h
          | some a =>
            rw [hd, hde, ha] at h
            have hinj := Except.ok.inj h
            refine ⟨fps, df, rfl, ?_⟩
            rw [← hinj]
            exact ⟨hd, hde, ha, rfl, rfl, rfl, rfl⟩
    · rintro ⟨fps', df', hok, h1, h2, h3, h4, h5, h6, h7⟩
      obtain ⟨h8, h9⟩ := Prod.mk.injEq .. ▸ Except.ok.inj hok
      subst h8
      subst h9
      obtain ⟨dc, dfo, dec, ac, lc, hh, sn⟩ := spec
      simp only at h1 h2 h3 h4 h5 h6 h7
      subst h5
      subst h6
      subst h7
      simp only
      rw [h1, h2, h3, h4]

/-- Positions recorded by the loop stay below the running index plus
the number of remaining parts. -/
theorem processParts_bound (parts : List (List Char)) (idx : Nat) (fps : FieldPositions)
    (df : String) (fps' : FieldPositions) (df' : String)
    (h : processParts parts idx fps df = .ok (fps', df'))
    (hb : ∀ t v, fps.lookup t = some v → v < idx) :
    ∀ t v, fps'.lookup t = some v → v < idx + parts.length := by
  induction parts generalizing idx fps df with
  | nil =>
    simp only [processParts, Except.ok.injEq, Prod.mk.injEq] at h
    obtain ⟨rfl, rfl⟩ := h
    intro t v hv
    have := hb t v hv
    simp only [List.length_nil]
    omega
  | cons p rest ih =>
    simp only [processParts] at h
    cases hm : fieldMatchAux p with
    | none => rw [hm] at h; cases h
    | some x =>
      obtain ⟨ident, sub, rem⟩ := x
      rw [hm] at h
      simp only at h
      split at h
      · intro t v hv
        have := ih (idx + 1) fps df h (fun t v hv => by have := hb t v hv; omega) t v hv
        simp only [List.length_cons]
        omega
      · split at h
        · next hvf =>
          split at h
          · cases h
          · intro t v hv
            have hb2 : ∀ u v, ((fps.insert (lowerName ident) idx).lookup u) = some v →
                v < idx + 1 := by
              intro u v hu
              by_cases hut : u = lowerName ident
              · subst hut
                rw [FieldPositions.lookup_insert_self fps _ idx hvf] at hu
                have hv2 : idx = v := Option.some.inj hu
                omega
              · rw [FieldPositions.lookup_insert_ne fps _ u idx hut] at hu
                have := hb u v hu
                omega
            have := ih (idx + 1) _ _ h hb2 t v hv
            simp only [List.length_cons]
            omega
        · cases h

theorem FieldPositions.lookup_bumpF (n : Nat) (fps : FieldPositions) (t : String) :
    (bumpF n fps).lookup t = (fps.lookup t).map (bumpVal n) := by
  unfold FieldPositions.lookup bumpF
  split_ifs <;> rfl

theorem FieldPositions.insert_bumpF (n i : Nat) (fps : FieldPositions) (t : String)
    (hni : n ≤ i) : (bumpF n fps).insert t (i + 1) = bumpF n (fps.insert t i) := by
  unfold FieldPositions.insert
  split_ifs <;> simp [bumpF, bumpVal, hni]

/-- Shifting the loop's starting index by one (as an inserted earlier
segment does) shifts every recorded position at or above the insertion
point by one and changes nothing else. -/
theorem processParts_shift (parts : List (List Char)) (idx n : Nat)
    (fps : FieldPositions) (df : String) (fps' : FieldPositions) (df' : String)
    (hn : n ≤ idx)
    (h : processParts parts idx fps df = .ok (fps', df')) :
    processParts parts (idx + 1) (bumpF n fps) df = .ok (bumpF n fps', df') := by
  induction parts generalizing idx fps df with
  | nil =>
    simp only [processParts, Except.ok.injEq, Prod.mk.injEq] at h ⊢
    obtain ⟨rfl, rfl⟩ := h
    exact ⟨rfl, rfl⟩
  | cons p rest ih =>
    simp only [processParts] at h ⊢
    cases hm : fieldMatchAux p with
    | none => rw [hm] at h; cases h
    | some x =>
      obtain ⟨ident, sub, rem⟩ := x
      rw [hm] at h
      simp only at h ⊢
      by_cases h1 : lowerName ident = "_"
      · rw [if_pos h1] at h ⊢
        exact ih (idx + 1) fps df (by omega) h
      · rw [if_neg h1] at h ⊢
        by_cases h2 : lowerName ident ∈ validFields
        · rw [if_pos h2] at h ⊢
          rw [FieldPositions.lookup_bumpF]
          by_cases h3 : (fps.lookup (lowerName ident)).isSome
          · rw [if_pos h3] at h
            cases h
          · rw [if_neg h3] at h
            rw [if_neg (by simpa using h3)]
            rw [FieldPositions.insert_bumpF n idx fps _ hn]
            exact ih (idx + 1) _ _ (by omega) h
        · rw [if_neg h2] at h
          cases h

/-- The loop itself never raises the empty-format-string error. -/
theorem processParts_ne_empty (parts : List (List Char)) (idx : Nat)
    (fps : FieldPositions) (df : String) :
    processParts parts idx fps df ≠ .error .emptyFormatString := by
  induction parts generalizing idx fps df with
  | nil => simp [processParts]
  | cons p rest ih =>
    intro hcon
    simp only [processParts] at hcon
    cases hm : fieldMatchAux p with
    | none => rw [hm] at hcon; simp at hcon
    | some x =>
      obtain ⟨ident, sub, rem⟩ := x
      rw [hm] at hcon
      simp only at hcon
      split at hcon
      · exact ih _ _ _ hcon
      · split at hcon
        · split at hcon
          · simp at hcon
          · exact ih _ _ _ hcon
        · simp at hcon

/-- C1: the claim says empty, whitespace-only or degenerate inputs fail
with the message "Empty format string".  In fact Python's
`format_str.split(',')` always returns at least one part, so the
`if not parts` guard is dead code: such inputs fail with
"Invalid format at column 0: ''" instead, and no input at all can
produce the empty-format-string error. -/
theorem claim_C1_empty_unreachable :
    parse_format_string sEmpty = .error (.invalidFormat 0 sEmpty) ∧
    parse_format_string sSpaces = .error (.invalidFormat 0 sEmpty) ∧
    parse_format_string sCommas = .error (.invalidFormat 0 sEmpty) ∧
    ∀ s : String, parse_format_string s ≠ .error .emptyFormatString := by
  refine ⟨by decide, by decide, by decide, ?_⟩
  intro s
  rw [parse_format_string_eq]
  cases hr : processParts (segmentsOf s) 0 FieldPositions.empty dfltDateFormat with
  | error e =>
    intro h
    have he : e = .emptyFormatString := by
      simpa using h
    exact processParts_ne_empty _ _ _ _ (he ▸ hr)
  | ok r =>
    obtain ⟨fps, df⟩ := r
    cases hd : fps.date <;> cases hde : fps.description <;> cases ha : fps.amount <;>
      simp [hd, hde, ha]

/-- C7: the five-segment example with a date subformat, a skip segment
and a location parses to exactly the documented FormatSpec. -/
theorem claim_C7_example :
    parse_format_string sC7 =
      .ok { date_column := 0, date_format := "%Y-%m-%d", description_column := 2,
            amount_column := 4, location_column := some 3, has_header := true,
            source_name := none } := by
  decide

/-- C4 counterexample: the claim quantifies over every input in which a
recognized tag occurs twice, but an earlier malformed or unknown
segment fails first.  Here `date` occurs at columns 1 and 2, yet the
parse fails with the unknown-field error for `color` at column 0, not
with the duplicate-field error at column 2. -/
theorem claim_C4_counterexample :
    parse_format_string sC4x = .error (.unknownField ( "color" ) 0) ∧
    parse_format_string sC4x ≠ .error (.duplicateField ( "date" ) 2) := by
  decide

/-- C4 (amended): if every segment before the second occurrence is
recognized and duplicate-free, then a second occurrence of a recognized
tag `t` at column `xs.length` fails with the duplicate-field error for
`t` at exactly that column. -/
theorem claim_C4_duplicate (s : String) (xs zs : List (List Char)) (y : List Char)
    (t : String)
    (hsegs : segmentsOf s = xs ++ y :: zs)
    (hxs : ∀ p ∈ xs, recognizedSeg p = true)
    (hxsu : ∀ u ∈ validFields, countTag xs u ≤ 1)
    (hy : segTag y = some t)
    (htv : t ∈ validFields)
    (hdup : countTag xs t = 1) :
    parse_format_string s = .error (.duplicateField t xs.length) := by
  obtain ⟨f1, d1, hrun, hchar⟩ :=
    processParts_wf xs 0 FieldPositions.empty dfltDateFormat hxs
      (fun u hu hs => by rw [FieldPositions.empty_lookup] at hs; cases hs) hxsu
  have htne : t ≠ "_" := fun he => underscore_not_valid (he ▸ htv)
  have hsome : (f1.lookup t).isSome := by
    rw [hchar t htv, FieldPositions.empty_lookup, Option.none_or]
    have hfind : findTagIdx xs t ≠ none := fun hn => by
      rw [findTagIdx_none_iff] at hn
      omega
    cases hf : findTagIdx xs t with
    | none => exact absurd hf hfind
    | some j => simp
  obtain ⟨⟨ident, sub, rem⟩, hm, hlow⟩ :
      ∃ x, fieldMatchAux y = some x ∧ lowerName x.1 = t := by
    cases hmy : fieldMatchAux y with
    | none => simp [segTag, hmy] at hy
    | some x => exact ⟨x, rfl, by simpa [segTag, hmy] using hy⟩
  have hstep : processParts (y :: zs) xs.length f1 d1 =
      .error (.duplicateField t xs.length) := by
    simp only [processParts, hm]
    rw [hlow, if_neg htne, if_pos htv, if_pos hsome]
  rw [parse_format_string_eq, hsegs, processParts_append, hrun]
  simp only [Nat.zero_add, hstep]

/-- C4 witness at the spec's own example. -/
theorem claim_C4_witness :
    parse_format_string sC4 = .error (.duplicateField ( "date" ) 1) :=
  claim_C4_duplicate sC4 [segDate] [segDesc, segAmount] segDate ( "date" )
    (by decide) (by decide) (by decide) (by decide) (by decide) (by decide)

/-- C6 counterexample: the claim quantifies over every input containing
a brace-matching segment with an unknown identifier and says the parse
fails at that segment; but a malformed earlier segment fails first.
Here segment 1 is `(color)` (unknown), yet the parse fails with the
invalid-format error at column 0 for the segment `x`. -/
theorem claim_C6_counterexample :
    parse_format_string sC6x = .error (.invalidFormat 0 ( "x" )) ∧
    parse_format_string sC6x ≠ .error (.unknownField ( "color" ) 1) := by
  decide

/-- C6 (amended): if every segment before it is recognized and
duplicate-free, a brace-matching segment at column `xs.length` whose
lower-cased identifier is neither the skip marker nor a recognized
field fails with the unknown-field error for that identifier at
exactly that column. -/
theorem claim_C6_unknown (s : String) (xs zs : List (List Char)) (y : List Char)
    (t : String)
    (hsegs : segmentsOf s = xs ++ y :: zs)
    (hxs : ∀ p ∈ xs, recognizedSeg p = true)
    (hxsu : ∀ u ∈ validFields, countTag xs u ≤ 1)
    (hy : segTag y = some t)
    (ht1 : t ≠ "_")
    (ht2 : t ∉ validFields) :
    parse_format_string s = .error (.unknownField t xs.length) := by
  obtain ⟨f1, d1, hrun, hchar⟩ :=
    processParts_wf xs 0 FieldPositions.empty dfltDateFormat hxs
      (fun u hu hs => by rw [FieldPositions.empty_lookup] at hs; cases hs) hxsu
  obtain ⟨⟨ident, sub, rem⟩, hm, hlow⟩ :
      ∃ x, fieldMatchAux y = some x ∧ lowerName x.1 = t := by
    cases hmy : fieldMatchAux y with
    | none => simp [segTag, hmy] at hy
    | some x => exact ⟨x, rfl, by simpa [segTag, hmy] using hy⟩
  have hstep : processParts (y :: zs) xs.length f1 d1 =
      .error (.unknownField t xs.length) := by
    simp only [processParts, hm]
    rw [hlow, if_neg ht1, if_neg ht2]
  rw [parse_format_string_eq, hsegs, processParts_append, hrun]
  simp only [Nat.zero_add, hstep]

/-- C6 witness at the spec's own example. -/
theorem claim_C6_witness :
    parse_format_string sC6 = .error (.unknownField ( "color" ) 0) :=
  claim_C6_unknown sC6 [] [segDesc, segAmount, segDate] segColor ( "color" )
    (by decide) (by decide) (by decide) (by decide) (by decide) (by decide)

theorem required_sub_valid (r : String) (hr : r ∈ requiredFields) : r ∈ validFields := by
  simp only [requiredFields, List.mem_cons, List.not_mem_nil, or_false] at hr
  rcases hr with rfl | rfl | rfl <;> decide

/-- C2: a well-formed input carrying each required tag exactly once
(any number of skips, at most one location) parses successfully, and
the three required column indices are exactly the positions of the
segments carrying the tags, pairwise distinct. -/
theorem claim_C2_wellformed (s : String)
    (hw : ∀ p ∈ segmentsOf s, recognizedSeg p = true)
    (hd : countTag (segmentsOf s) ( "date" ) = 1)
    (hde : countTag (segmentsOf s) ( "description" ) = 1)
    (ha : countTag (segmentsOf s) ( "amount" ) = 1)
    (hl : countTag (segmentsOf s) ( "location" ) ≤ 1) :
    ∃ spec : FormatSpec, parse_format_string s = .ok spec ∧
      findTagIdx (segmentsOf s) ( "date" ) = some spec.date_column ∧
      findTagIdx (segmentsOf s) ( "description" ) = some spec.description_column ∧
      findTagIdx (segmentsOf s) ( "amount" ) = some spec.amount_column ∧
      spec.date_column ≠ spec.description_column ∧
      spec.date_column ≠ spec.amount_column ∧
      spec.description_column ≠ spec.amount_column := by
  obtain ⟨fps, df, hrun, hchar⟩ :=
    processParts_wf (segmentsOf s) 0 FieldPositions.empty dfltDateFormat hw
      (fun u hu hs => by rw [FieldPositions.empty_lookup] at hs; cases hs)
      (by
        intro u hu
        simp only [validFields, List.mem_cons, List.not_mem_nil, or_false] at hu
        rcases hu with rfl | rfl | rfl | rfl
        · exact le_of_eq hd
        · exact le_of_eq hde
        · exact le_of_eq ha
        · exact hl)
  have hfind : ∀ u : String, countTag (segmentsOf s) u = 1 → ∃ j,
      findTagIdx (segmentsOf s) u = some j := by
    intro u hcu
    cases hf : findTagIdx (segmentsOf s) u with
    | none =>
      rw [findTagIdx_none_iff] at hf
      omega
    | some j => exact ⟨j, rfl⟩
  obtain ⟨jd, hjd⟩ := hfind _ hd
  obtain ⟨jde, hjde⟩ := hfind _ hde
  obtain ⟨ja, hja⟩ := hfind _ ha
  have hlk : ∀ (u : String), u ∈ validFields → ∀ j, findTagIdx (segmentsOf s) u = some j →
      fps.lookup u = some j := by
    intro u hu j hj
    rw [hchar u hu, FieldPositions.empty_lookup, Option.none_or, hj]
    simp
  have hfd : fps.date = some jd := by
    rw [← FieldPositions.lookup_date]
    exact hlk _ (by decide) _ hjd
  have hfde : fps.description = some jde := by
    rw [← FieldPositions.lookup_description]
    exact hlk _ (by decide) _ hjde
  have hfa : fps.amount = some ja := by
    rw [← FieldPositions.lookup_amount]
    exact hlk _ (by decide) _ hja
  have hdiff : ∀ (t1 t2 : String) (j : Nat), t1 ≠ t2 →
      findTagIdx (segmentsOf s) t1 = some j →
      findTagIdx (segmentsOf s) t2 = some j → False := by
    intro t1 t2 j hne ht1 ht2
    obtain ⟨p1, hp1, hq1⟩ := findTagIdx_spec _ _ _ ht1
    obtain ⟨p2, hp2, hq2⟩ := findTagIdx_spec _ _ _ ht2
    rw [hp1] at hp2
    have hp : p1 = p2 := Option.some.inj hp2
    rw [← hp] at hq2
    rw [hq1] at hq2
    exact hne (Option.some.inj hq2)
  refine ⟨{ date_column := jd, date_format := df, description_column := jde,
            amount_column := ja, location_column := fps.location,
            has_header := true, source_name := none }, ?_, hjd, hjde, hja, ?_, ?_, ?_⟩
  · rw [parse_ok_iff]
    exact ⟨fps, df, hrun, hfd, hfde, hfa, rfl, rfl, rfl, rfl⟩
  · intro he
    simp only at he
    exact hdiff ( "date" ) ( "description" ) jd (by decide) hjd (he ▸ hjde)
  · intro he
    simp only at he
    exact hdiff ( "date" ) ( "amount" ) jd (by decide) hjd (he ▸ hja)
  · intro he
    simp only at he
    exact hdiff ( "description" ) ( "amount" ) jde (by decide) hjde (he ▸ hja)

/-- C5: a well-formed, duplicate-free input lacking one or more of the
required tags fails with the missing-required-fields error naming
exactly the required fields that carry no segment (in canonical
date/description/amount order; Python renders the same set without a
defined order). -/
theorem claim_C5_missing (s : String)
    (hw : ∀ p ∈ segmentsOf s, recognizedSeg p = true)
    (hu : ∀ u ∈ validFields, countTag (segmentsOf s) u ≤ 1)
    (hmiss : requiredFields.filter (fun r => countTag (segmentsOf s) r == 0) ≠ []) :
    parse_format_string s = .error (.missingRequired
      (requiredFields.filter (fun r => countTag (segmentsOf s) r == 0))) := by
  obtain ⟨fps, df, hrun, hchar⟩ :=
    processParts_wf (segmentsOf s) 0 FieldPositions.empty dfltDateFormat hw
      (fun u hu2 hs => by rw [FieldPositions.empty_lookup] at hs; cases hs) hu
  have hlk : ∀ r ∈ requiredFields,
      fps.lookup r = (findTagIdx (segmentsOf s) r).map (fun j => j + 0) := by
    intro r hr
    rw [hchar r (required_sub_valid r hr), FieldPositions.empty_lookup, Option.none_or]
  have hfe : requiredFields.filter (fun r => (fps.lookup r).isNone) =
      requiredFields.filter (fun r => countTag (segmentsOf s) r == 0) := by
    apply List.filter_congr
    intro r hr
    rw [hlk r hr]
    cases hf : findTagIdx (segmentsOf s) r with
    | none =>
      have h0 := (findTagIdx_none_iff _ _).mp hf
      simp [h0]
    | some j =>
      have h0 : countTag (segmentsOf s) r ≠ 0 := fun hz => by
        rw [← findTagIdx_none_iff] at hz
        rw [hz] at hf
        cases hf
      simp [h0]
  obtain ⟨r0, hr0mem, hr0⟩ : ∃ r ∈ requiredFields, countTag (segmentsOf s) r = 0 := by
    rcases hfl : requiredFields.filter (fun r => countTag (segmentsOf s) r == 0) with
      _ | ⟨a, l⟩
    · exact absurd hfl hmiss
    · have ham : a ∈ requiredFields.filter (fun r => countTag (segmentsOf s) r == 0) := by
        rw [hfl]
        exact List.mem_cons_self a l
      rw [List.mem_filter] at ham
      exact ⟨a, ham.1, by simpa using ham.2⟩
  have hnone : fps.lookup r0 = none := by
    rw [hlk r0 hr0mem, (findTagIdx_none_iff _ _).mpr hr0]
    rfl
  rw [parse_format_string_eq, hrun]
  simp only
  rw [hfe] at *
  simp only [requiredFields, List.mem_cons, List.not_mem_nil, or_false] at hr0mem
  rcases hr0mem with rfl | rfl | rfl
  · have hdn : fps.date = none := by rw [← FieldPositions.lookup_date]; exact hnone
    rw [hdn]
  · have hdn : fps.description = none := by
      rw [← FieldPositions.lookup_description]; exact hnone
    rw [hdn]
    cases hdd : fps.date <;> rfl
  · have hdn : fps.amount = none := by rw [← FieldPositions.lookup_amount]; exact hnone
    rw [hdn]
    cases hdd : fps.date <;> cases hde2 : fps.description <;> rfl

/-- A captured subformat is non-empty (the regex uses `[^}]+`). -/
theorem fieldMatchAux_sub_ne_nil (l : List Char) (i f rem : List Char)
    (h : fieldMatchAux l = some (i, some f, rem)) : f ≠ [] := by
  unfold fieldMatchAux at h
  split at h
  · next r1 =>
    split at h
    · simp only at h
      split at h
      · cases h
      · simp only [Option.some.injEq, Prod.mk.injEq] at h
        exact absurd h.2.1 (by simp)
    · simp only at h
      split at h
      · cases h
      · split at h
        · split at h
          · cases h
          · next hsub =>
            simp only [Option.some.injEq, Prod.mk.injEq] at h
            obtain ⟨-, h2, -⟩ := h
            intro hf
            apply hsub
            rw [h2, hf]
        · cases h
    · cases h
  · cases h

/-- `dateSubOf` is the subformat of the first segment tagged `date`. -/
theorem dateSubOf_eq_of_findTagIdx (parts : List (List Char)) (j : Nat) (p : List Char)
    (hj : findTagIdx parts ( "date" ) = some j) (hp : parts[j]? = some p) :
    dateSubOf parts = (fieldMatchAux p).bind (fun x => x.2.1) := by
  induction parts generalizing j with
  | nil => simp [findTagIdx] at hj
  | cons q rest ih =>
    by_cases hq : segTag q = some ( "date" )
    · rw [findTagIdx_cons_self _ _ _ hq] at hj
      have hj0 : j = 0 := (Option.some.inj hj).symm
      subst hj0
      simp only [List.getElem?_cons_zero, Option.some.injEq] at hp
      subst hp
      rw [dateSubOf_cons_self _ _ hq]
    · rw [findTagIdx_cons_of_ne _ _ _ hq] at hj
      rw [Option.map_eq_some'] at hj
      obtain ⟨j', hj', rfl⟩ := hj
      rw [dateSubOf_cons_ne _ _ hq]
      exact ih j' hj' (by simpa using hp)

/-- C3: every successful parse has exactly one date segment, and the
returned date format is that segment's subformat when present, the
default `%m/%d/%Y` otherwise. -/
theorem claim_C3_date_format (s : String) (spec : FormatSpec)
    (h : parse_format_string s = .ok spec) :
    countTag (segmentsOf s) ( "date" ) = 1 ∧
    ∃ p, p ∈ segmentsOf s ∧ segTag p = some ( "date" ) ∧
      spec.date_format = match segSub p with
        | some f => f
        | none => "%m/%d/%Y" := by
  obtain ⟨fps, df, hrun, h1, h2, h3, h4, h5, h6, h7⟩ := (parse_ok_iff s spec).mp h
  obtain ⟨-, hcond⟩ := processParts_dateFormat _ _ _ _ _ _ hrun
  obtain ⟨hcount, hiff, hdf⟩ := hcond rfl
  have hfind : (findTagIdx (segmentsOf s) ( "date" )).isSome := by
    apply hiff.mp
    rw [h1]
    rfl
  obtain ⟨j, hj⟩ := Option.isSome_iff_exists.mp hfind
  obtain ⟨p, hp, htag⟩ := findTagIdx_spec _ _ _ hj
  have hmem : p ∈ segmentsOf s := by
    obtain ⟨hjlt, rfl⟩ := List.getElem?_eq_some.mp hp
    exact List.getElem_mem hjlt
  have hc1 : countTag (segmentsOf s) ( "date" ) = 1 := by
    have hne0 : countTag (segmentsOf s) ( "date" ) ≠ 0 := fun hz => by
      rw [← findTagIdx_none_iff] at hz
      rw [hz] at hj
      cases hj
    omega
  refine ⟨hc1, p, hmem, htag, ?_⟩
  rw [h5, hdf, dateSubOf_eq_of_findTagIdx (segmentsOf s) j p hj hp]
  cases hmp : fieldMatchAux p with
  | none => simp [segTag, hmp] at htag
  | some x =>
    obtain ⟨i, su, rem⟩ := x
    cases su with
    | none => simp [segSub, hmp, dfltDateFormat]
    | some f =>
      have hf : f ≠ [] := fieldMatchAux_sub_ne_nil p i f rem hmp
      simp [segSub, hmp, hf, dfltDateFormat]

theorem segRel_refl (l : List (List Char)) :
    List.Forall₂ (fun a b => segKey a = segKey b ∧ (segKey a = none → a = b)) l l := by
  induction l with
  | nil => exact List.Forall₂.nil
  | cons a l ih => exact List.Forall₂.cons ⟨rfl, fun _ => rfl⟩ ih

/-- C8: the match anchors only at the start of a segment, so appending
trailing text after the closing brace of any segment of a successfully
parsed format string yields the same FormatSpec.  (The trailing text
lives inside the segment, hence contains no comma: a comma would start
a new segment by definition of the split.) -/
theorem claim_C8_trailing (s s' : String) (ps qs : List (List Char)) (p t : List Char)
    (spec : FormatSpec)
    (h1 : splitComma s.data = ps ++ p :: qs)
    (h2 : splitComma s'.data = ps ++ (p ++ t) :: qs)
    (hok : parse_format_string s = .ok spec) :
    parse_format_string s' = .ok spec := by
  have hs1 : segmentsOf s = ps.map trimChars ++ trimChars p :: qs.map trimChars := by
    rw [segmentsOf, h1]
    simp
  have hs2 : segmentsOf s' = ps.map trimChars ++ trimChars (p ++ t) :: qs.map trimChars := by
    rw [segmentsOf, h2]
    simp
  obtain ⟨fps, df, hrun, hrest⟩ := (parse_ok_iff s spec).mp hok
  have hmatch : (fieldMatchAux (trimChars p)).isSome := by
    have hmem : trimChars p ∈ segmentsOf s := by
      rw [hs1]
      exact List.mem_append_right _ (List.mem_cons_self _ _)
    exact processParts_ok_matched _ _ _ _ _ hrun _ hmem
  obtain ⟨x, hx⟩ := Option.isSome_iff_exists.mp hmatch
  have hkeysome : (segKey (trimChars p)).isSome := by simp [segKey, hx]
  have hkey := segKey_append p t hkeysome
  have hks : segKey (trimChars p) ≠ none := by simp [segKey, hx]
  have hrel : List.Forall₂ (fun a b => segKey a = segKey b ∧ (segKey a = none → a = b))
      (segmentsOf s) (segmentsOf s') := by
    rw [hs1, hs2]
    refine List.rel_append (segRel_refl _) ?_
    exact List.Forall₂.cons ⟨hkey.symm, fun hn => absurd hn hks⟩ (segRel_refl _)
  have hcong := processParts_congr _ _ hrel 0 FieldPositions.empty dfltDateFormat
  rw [parse_ok_iff]
  exact ⟨fps, df, by rw [← hcong]; exact hrun, hrest⟩

/-- C9: field identifiers are case-insensitive; replacing one segment
by a segment with the same structure whose identifier differs only in
letter case yields an identical parse outcome (the same FormatSpec or
the same error). -/
theorem claim_C9_case_insensitive (s s' : String) (ps qs : List (List Char))
    (p p' : List Char) (i i' : List Char) (su : Option (List Char)) (rem rem' : List Char)
    (h1 : splitComma s.data = ps ++ p :: qs)
    (h2 : splitComma s'.data = ps ++ p' :: qs)
    (hm : fieldMatchAux (trimChars p) = some (i, su, rem))
    (hm' : fieldMatchAux (trimChars p') = some (i', su, rem'))
    (hcase : i.map Char.toLower = i'.map Char.toLower) :
    parse_format_string s = parse_format_string s' := by
  have hs1 : segmentsOf s = ps.map trimChars ++ trimChars p :: qs.map trimChars := by
    rw [segmentsOf, h1]
    simp
  have hs2 : segmentsOf s' = ps.map trimChars ++ trimChars p' :: qs.map trimChars := by
    rw [segmentsOf, h2]
    simp
  have hlow : lowerName i = lowerName i' := by
    unfold lowerName
    rw [hcase]
  have hrel : List.Forall₂ (fun a b => segKey a = segKey b ∧ (segKey a = none → a = b))
      (segmentsOf s) (segmentsOf s') := by
    rw [hs1, hs2]
    refine List.rel_append (segRel_refl _) ?_
    refine List.Forall₂.cons ⟨?_, ?_⟩ (segRel_refl _)
    · simp [segKey, hm, hm', hlow]
    · intro hn
      simp [segKey, hm] at hn
  rw [parse_format_string_eq, parse_format_string_eq,
    processParts_congr _ _ hrel 0 FieldPositions.empty dfltDateFormat]

/-- C10: the skip marker is exempt from the duplicate check: inserting
an extra `(_)`-segment anywhere into a successfully parsed format
string still parses, the inserted segment consumes one position index,
and every recorded column at or after the insertion point shifts up by
one. -/
theorem claim_C10_skip_insert (s s' : String) (xs ys : List (List Char)) (w : List Char)
    (spec : FormatSpec)
    (h1 : splitComma s.data = xs ++ ys)
    (h2 : splitComma s'.data = xs ++ w :: ys)
    (hw : trimChars w = skipSeg)
    (hok : parse_format_string s = .ok spec) :
    parse_format_string s' = .ok { spec with
      date_column := bumpVal xs.length spec.date_column,
      description_column := bumpVal xs.length spec.description_column,
      amount_column := bumpVal xs.length spec.amount_column,
      location_column := spec.location_column.map (bumpVal xs.length) } := by
  obtain ⟨fps, df, hrun, hd, hde, ha, hl, hdf, hh, hsn⟩ := (parse_ok_iff s spec).mp hok
  have hs1 : segmentsOf s = xs.map trimChars ++ ys.map trimChars := by
    rw [segmentsOf, h1]
    simp
  have hs2 : segmentsOf s' = xs.map trimChars ++ skipSeg :: ys.map trimChars := by
    rw [segmentsOf, h2]
    simp [hw]
  rw [hs1, processParts_append] at hrun
  cases hpre : processParts (xs.map trimChars) 0 FieldPositions.empty dfltDateFormat with
  | error e =>
    rw [hpre] at hrun
    simp only at hrun
    cases hrun
  | ok r1 =>
    obtain ⟨f1, d1⟩ := r1
    rw [hpre] at hrun
    simp only [Nat.zero_add] at hrun
    have hbnd := processParts_bound _ _ _ _ _ _ hpre
      (fun t v hv => by rw [FieldPositions.empty_lookup] at hv; cases hv)
    have hb : ∀ (t : String) (o : Option Nat), f1.lookup t = o →
        o.map (bumpVal (xs.map trimChars).length) = o := by
      intro t o ho
      cases o with
      | none => rfl
      | some v =>
        have hvlt := hbnd t v ho
        simp only [Nat.zero_add] at hvlt
        simp only [Option.map_some']
        rw [bumpVal, if_neg (by omega)]
    have hfix : bumpF (xs.map trimChars).length f1 = f1 := by
      apply FieldPositions.ext
      · exact hb ( "date" ) f1.date (FieldPositions.lookup_date f1)
      · exact hb ( "description" ) f1.description (FieldPositions.lookup_description f1)
      · exact hb ( "amount" ) f1.amount (FieldPositions.lookup_amount f1)
      · exact hb ( "location" ) f1.location (FieldPositions.lookup_location f1)
    rw [parse_ok_iff]
    refine ⟨bumpF (xs.map trimChars).length fps, df, ?_, ?_, ?_, ?_, ?_, hdf, hh, hsn⟩
    · rw [hs2, processParts_append, hpre]
      simp only [Nat.zero_add]
      have hskipm : fieldMatchAux skipSeg = some ([ '_' ], none, []) := by decide
      simp only [processParts, hskipm]
      rw [if_pos (show lowerName [ '_' ] = "_" from by decide)]
      have hsh := processParts_shift _ _ (xs.map trimChars).length f1 d1 fps df
        le_rfl hrun
      rw [hfix] at hsh
      exact hsh
    · simp only [bumpF, hd, Option.map_some', List.length_map]
    · simp only [bumpF, hde, Option.map_some', List.length_map]
    · simp only [bumpF, ha, Option.map_some', List.length_map]
    · simp only [bumpF, hl, List.length_map]

/-- C2 witness: a five-segment mixed-case example with a skip and a
location segment. -/
theorem claim_C2_witness :
    ∃ spec : FormatSpec, parse_format_string sC2w = .ok spec ∧
      findTagIdx (segmentsOf sC2w) ( "date" ) = some spec.date_column ∧
      findTagIdx (segmentsOf sC2w) ( "description" ) = some spec.description_column ∧
      findTagIdx (segmentsOf sC2w) ( "amount" ) = some spec.amount_column ∧
      spec.date_column ≠ spec.description_column ∧
      spec.date_column ≠ spec.amount_column ∧
      spec.description_column ≠ spec.amount_column :=
  claim_C2_wellformed sC2w (by decide) (by decide) (by decide) (by decide) (by decide)

/-- C3 witness at a date segment with subformat. -/
theorem claim_C3_witness :
    countTag (segmentsOf sC3w) ( "date" ) = 1 ∧
    ∃ p, p ∈ segmentsOf sC3w ∧ segTag p = some ( "date" ) ∧
      specC3.date_format = match segSub p with
        | some f => f
        | none => "%m/%d/%Y" :=
  claim_C3_date_format sC3w specC3 (by decide)

/-- C5 witness at the spec's example: the missing set names date. -/
theorem claim_C5_witness :
    parse_format_string sC5w = .error (.missingRequired [ "date" ]) :=
  (claim_C5_missing sC5w (by decide) (by decide) (by decide)).trans (by decide)

/-- C8 witness: appending XY after the closing brace of the date
segment leaves the FormatSpec unchanged. -/
theorem claim_C8_witness : parse_format_string sC8wx = .ok specBasic :=
  claim_C8_trailing sC8w sC8wx [] qsC8 pC8 tC8 specBasic
    (by decide) (by decide) (by decide)

/-- C9 witness: upper-casing the date identifier gives the same
outcome. -/
theorem claim_C9_witness : parse_format_string sC9w = parse_format_string sC9wx :=
  claim_C9_case_insensitive sC9w sC9wx [] qsC8 pC9 pC9x iC9 iC9x none [] []
    (by decide) (by decide) (by decide) (by decide) (by decide)

/-- C10 witness: inserting a skip segment at position 1 shifts the
description and amount columns by one. -/
theorem claim_C10_witness :
    parse_format_string sC10wx = .ok { specBasic with
      date_column := bumpVal 1 specBasic.date_column,
      description_column := bumpVal 1 specBasic.description_column,
      amount_column := bumpVal 1 specBasic.amount_column,
      location_column := specBasic.location_column.map (bumpVal 1) } :=
  claim_C10_skip_insert sC8w sC10wx [ pC8 ] qsC8 wC10 specBasic
    (by decide) (by decide) (by decide) (by decide)
